import Mathlib

/-!
# LocaleStrings: reader of gettext `.mo` catalogs (`src/com/localestrings.cc`)

A shallow embedding of the class `LocaleStrings` and the properties of its
header parser, its bounds-checked integer accessors, its indexed string
accessors and its binary search.

Conventions of the embedding.

* A byte of the buffer is a `Fin 256`; the buffer `_data` is a list of bytes.
* A C++ `int` is an `Int`; every arithmetic result is reduced with `wrap32`
  (two's complement, 32 bits), `unsigned int` results with `% 2 ^ 32`.
* A `const char*` is a `CharPtr`: `nullptr`, a position `&_data[off]` inside
  or outside the buffer, or a NUL-terminated string owned by the caller.
* Every operation returns a `Run`: the list of byte offsets of `_data` it
  read, in order, and either its result or the reason it stopped. A read at
  an offset outside the allocation is undefined behaviour in C++; the model
  records the offset and stops with `Stop.badRead`.
* Integers are little-endian in memory, as on the hosts the format is read on.
-/

/-- One byte of the catalog buffer. -/
abbrev Byte := Fin 256

/-- Reduction of a mathematical integer to the value of a 32-bit `int`. -/
def wrap32 (x : Int) : Int := (x + 2147483648) % 4294967296 - 2147483648

/-- Reasons for which a run does not produce a value. -/
inductive Stop where
  /-- read of `_data[addr]` with `addr` outside the allocation -/
  | badRead (addr : Int)
  /-- read through `nullptr` -/
  | nullRead
  /-- `new char[_L]` with a negative `_L` -/
  | badAlloc
  /-- the recursion budget given to the model ran out -/
  | fuel
  deriving DecidableEq, Repr

deriving instance DecidableEq for Except

/-- Outcome of an operation: the offsets of `_data` read, and the result. -/
structure Run (α : Type) where
  reads : List Int
  out : Except Stop α
  deriving DecidableEq

namespace Run

/-- Return a value without reading. -/
protected def pure {α : Type} (a : α) : Run α := ⟨[], .ok a⟩

/-- Stop without a value. -/
def stop {α : Type} (e : Stop) : Run α := ⟨[], .error e⟩

/-- Sequencing: the reads of the first run, then those of the second. -/
protected def bind {α β : Type} (x : Run α) (f : α → Run β) : Run β :=
  match x.out with
  | .ok a => ⟨x.reads ++ (f a).reads, (f a).out⟩
  | .error e => ⟨x.reads, .error e⟩

instance : Monad Run where
  pure := Run.pure
  bind := Run.bind

end Run

/-- A value of type `const char*`. -/
inductive CharPtr where
  /-- `nullptr` -/
  | null
  /-- `&_data[off]` -/
  | data (off : Int)
  /-- a NUL-terminated string of the caller, outside the buffer -/
  | arg (bytes : List Byte)
  deriving DecidableEq, Repr

/-- Modelled from the spec: the class declaration (`localestrings.h`) is not
among the sources. The members are the spec's `buffer` (`_data`), `length`
(`_L`), `count` (`_N`), `originalsOffset` (`_O`), `translationsOffset` (`_T`),
`hashSize` (`_S`) and `hashOffset` (`_H`). An integer member is represented by
the `int` that `localestrings.cc` assigns to it (`_N = intAt(8)`) and compares
it with (`addr > _L-4`, `i > _N`, `getIndex(str, 0, _N)`), that is by the
signed reading of its 32 bits. The spec types the header fields as unsigned
32-bit integers: the value of a field under that typing is `asUnsigned` of
the member. -/
structure LocaleStrings where
  _data : List Byte
  _L : Int
  _N : Int
  _O : Int
  _T : Int
  _S : Int
  _H : Int
  deriving DecidableEq, Repr

namespace LocaleStrings

/-- The magic number of a `.mo` file. -/
def magic : Int := 0x950412de

/-- Read of the single byte `_data[a]`. -/
def byteAt (s : LocaleStrings) (a : Int) : Run Byte :=
  if 0 ≤ a ∧ a < s._data.length then
    ⟨[a], .ok (s._data.getD a.toNat 0)⟩
  else
    ⟨[a], .error (.badRead a)⟩

/-- The unsigned value of four bytes in little-endian order. -/
def le32 (b0 b1 b2 b3 : Byte) : Int :=
  (b0.val : Int) + 256 * b1.val + 65536 * b2.val + 16777216 * b3.val

/-- The load `*reinterpret_cast<unsigned int*>(&_data[addr])`. -/
def load32 (s : LocaleStrings) (addr : Int) : Run Int := do
  let b0 ← byteAt s addr
  let b1 ← byteAt s (addr + 1)
  let b2 ← byteAt s (addr + 2)
  let b3 ← byteAt s (addr + 3)
  pure (le32 b0 b1 b2 b3)

/-- `int LocaleStrings::intAt(int addr) const` -/
def intAt (s : LocaleStrings) (addr : Int) : Run Int :=
  if addr > wrap32 (s._L - 4) then pure (-1)
  else do
    let v ← load32 s addr
    pure (wrap32 v)

/-- `unsigned int LocaleStrings::uintAt(int addr) const` -/
def uintAt (s : LocaleStrings) (addr : Int) : Run Int :=
  if addr > wrap32 (s._L - 4) then pure ((-1 : Int) % 4294967296)
  else load32 s addr

/-- Load of the file into memory, `bool LocaleStrings::dataLoad(const char*)`.
The file system is the argument `file`: `none` when the stream cannot be
opened, else the bytes of the file. `_L` receives the stream position
converted to `int`, and `_L` bytes are allocated and read. -/
def dataLoad (s : LocaleStrings) (file : Option (List Byte)) :
    Run (Bool × LocaleStrings) :=
  match file with
  | none => pure (false, s)
  | some bytes =>
    let L := wrap32 bytes.length
    if L < 0 then Run.stop .badAlloc
    else pure (true, { s with _L := L, _data := bytes.take L.toNat })

/-- `bool LocaleStrings::readDataHeader()`; the members are assigned in the
returned state. -/
def readDataHeader (s : LocaleStrings) : Run (Bool × LocaleStrings) := do
  let m ← uintAt s 0
  if m ≠ magic ∨ s._L < 28 then
    pure (false, s)
  else do
    let _version ← intAt s 4
    let n ← intAt s 8
    let s := { s with _N := n }
    let o ← intAt s 12
    let s := { s with _O := o }
    let t ← intAt s 16
    let s := { s with _T := t }
    let sz ← intAt s 20
    let s := { s with _S := sz }
    let h ← intAt s 24
    let s := { s with _H := h }
    pure (true, s)

/-- `const char* LocaleStrings::get(int i) const` -/
def get (s : LocaleStrings) (i : Int) : Run CharPtr :=
  if i > s._N then pure .null
  else do
    let addr := wrap32 (s._O + 8 * i + 4)
    let str ← intAt s addr
    pure (.data str)

/-- `const char* LocaleStrings::getTranslated(int i) const` -/
def getTranslated (s : LocaleStrings) (i : Int) : Run CharPtr :=
  if i > s._N then pure .null
  else do
    let addr := wrap32 (s._T + 8 * i + 4)
    let str ← intAt s addr
    pure (.data str)

/-- Scan of the buffer from offset `a`, where `rest` is the buffer from `a`
on: the bytes before the first NUL. Running off the end of the buffer is a
read outside it. -/
def scanFrom (a : Int) : List Byte → Run (List Byte)
  | [] => ⟨[a], .error (.badRead a)⟩
  | b :: rest =>
    if b = 0 then ⟨[a], .ok []⟩
    else do
      let _ ← (⟨[a], .ok ()⟩ : Run Unit)
      let t ← scanFrom (a + 1) rest
      pure (b :: t)

/-- The characters of the NUL-terminated string at `p`, as
`std::string(const char*)` and `std::string::compare(const char*)` read
them. -/
def cstr (s : LocaleStrings) : CharPtr → Run (List Byte)
  | .null => Run.stop .nullRead
  | .arg bytes => pure (bytes.takeWhile (fun b => b ≠ 0))
  | .data off =>
    if off < 0 then ⟨[off], .error (.badRead off)⟩
    else scanFrom off (s._data.drop off.toNat)

/-- The sign of `std::string::compare`: byte-wise lexicographic comparison
of unsigned bytes, a proper prefix being smaller. -/
def strCompare : List Byte → List Byte → Int
  | [], [] => 0
  | [], _ :: _ => -1
  | _ :: _, [] => 1
  | a :: as, b :: bs =>
    if a < b then -1 else if b < a then 1 else strCompare as bs

/-- The binary search `int LocaleStrings::getIndex(const char* str, int l,
int h) const`. The recursion of the source is bounded by `fuel` calls. -/
def getIndexLH (s : LocaleStrings) (str : CharPtr) : Nat → Int → Int → Run Int
  | 0, _, _ => Run.stop .fuel
  | fuel + 1, l, h =>
    if h < l then pure (-1)
    else do
      let m := Int.tdiv (wrap32 (l + h)) 2
      let ms ← get s m
      if ms = .null then pure (-1)
      else do
        let a ← cstr s str
        let b ← cstr s ms
        let c := strCompare a b
        if c < 0 then getIndexLH s str fuel l (wrap32 (m - 1))
        else if c > 0 then getIndexLH s str fuel (wrap32 (m + 1)) h
        else pure m

/-- `int LocaleStrings::getIndex(const char* str) const` -/
def getIndex (fuel : Nat) (s : LocaleStrings) (str : CharPtr) : Run Int :=
  getIndexLH s str fuel 0 s._N

/-- `const char* LocaleStrings::translate(const char* str) const` -/
def translate (fuel : Nat) (s : LocaleStrings) (str : CharPtr) : Run CharPtr := do
  let i ← getIndex fuel s str
  if i < 0 then pure str
  else getTranslated s i

/-- `bool LocaleStrings::open(const char* file)`: `dataLoad(file) &&
readDataHeader()`. -/
def openFile (s : LocaleStrings) (file : Option (List Byte)) :
    Run (Bool × LocaleStrings) := do
  let (loaded, s) ← dataLoad s file
  if loaded then readDataHeader s
  else pure (false, s)

/-! ## Vocabulary of the properties -/

/-- The unsigned 32-bit little-endian integer formed from the bytes at offsets
`a .. a + 3` of the buffer. -/
def word (s : LocaleStrings) (a : Int) : Int :=
  le32 (s._data.getD a.toNat 0) (s._data.getD (a + 1).toNat 0)
    (s._data.getD (a + 2).toNat 0) (s._data.getD (a + 3).toNat 0)

/-- The bytes of the buffer from offset `off` up to the next NUL. -/
def stringAt (s : LocaleStrings) (off : Int) : List Byte :=
  (s._data.drop off.toNat).takeWhile (fun b => b ≠ 0)

/-- A NUL-terminated string starts at `off` and ends inside the buffer. -/
def Terminated (s : LocaleStrings) (off : Int) : Prop :=
  0 ≤ off ∧ (0 : Byte) ∈ s._data.drop off.toNat

/-- The string offset stored in entry `i` of the table at `base`: the second
word of the pair (length, offset). -/
def entry (s : LocaleStrings) (base i : Int) : Int :=
  wrap32 (word s (base + 8 * i + 4))

/-- The `i`-th original string of the catalog. -/
def original (s : LocaleStrings) (i : Int) : List Byte :=
  stringAt s (entry s s._O i)

/-- The `i`-th translated string of the catalog. -/
def translation (s : LocaleStrings) (i : Int) : List Byte :=
  stringAt s (entry s s._T i)

/-- The reader holds a loaded buffer: `_L` is its length, which an `int`
can hold. -/
def Loaded (s : LocaleStrings) : Prop :=
  s._L = s._data.length ∧ s._data.length < 2147483648

/-- The header of the buffer is valid and the members are the ones
`readDataHeader` reads from it. -/
def HeaderValid (s : LocaleStrings) : Prop :=
  Loaded s ∧ (readDataHeader s).out = .ok (true, s)

/-- The `_N` entries of the table at `base` lie inside the buffer, and so does
every NUL-terminated string they refer to. -/
def TableInside (s : LocaleStrings) (base : Int) : Prop :=
  0 ≤ base ∧ base + 8 * s._N ≤ s._L ∧
    ∀ i : Nat, i < s._N.toNat → Terminated s (entry s base i)

/-- A well-formed catalog: valid header, both tables and every referenced
string inside the buffer. -/
def WellFormed (s : LocaleStrings) : Prop :=
  HeaderValid s ∧ 0 ≤ s._N ∧ TableInside s s._O ∧ TableInside s s._T

/-- The originals are in strictly ascending byte-wise order. -/
def StrictlyAscending (s : LocaleStrings) : Prop :=
  ∀ i : Nat, i < s._N.toNat - 1 →
    strCompare (original s i) (original s (i + 1 : Nat)) < 0

/-- The originals are in ascending byte-wise order, equal neighbours
allowed. -/
def Ascending (s : LocaleStrings) : Prop :=
  ∀ i : Nat, i < s._N.toNat - 1 →
    strCompare (original s i) (original s (i + 1 : Nat)) ≤ 0

instance (s : LocaleStrings) (off : Int) : Decidable (Terminated s off) := by
  unfold Terminated; infer_instance

instance (s : LocaleStrings) : Decidable (Loaded s) := by
  unfold Loaded; infer_instance

instance (s : LocaleStrings) : Decidable (HeaderValid s) := by
  unfold HeaderValid; infer_instance

instance (s : LocaleStrings) (base : Int) : Decidable (TableInside s base) := by
  unfold TableInside; infer_instance

instance (s : LocaleStrings) : Decidable (WellFormed s) := by
  unfold WellFormed; infer_instance

instance (s : LocaleStrings) : Decidable (StrictlyAscending s) := by
  unfold StrictlyAscending; infer_instance

instance (s : LocaleStrings) : Decidable (Ascending s) := by
  unfold Ascending; infer_instance

/-- The state `readDataHeader` leaves when it accepts the header: the five
members are the 32-bit words at offsets 8, 12, 16, 20 and 24, as `int`. -/
def parsed (s : LocaleStrings) : LocaleStrings :=
  { s with _N := wrap32 (word s 8), _O := wrap32 (word s 12), _T := wrap32 (word s 16),
           _S := wrap32 (word s 20), _H := wrap32 (word s 24) }

/-- Linear scan over the indices `i, i + 1, ..` of `k` originals: the first
index whose original equals the query, `-1` when there is none. -/
def linearScanFrom (s : LocaleStrings) (q : List Byte) : Nat → Nat → Int
  | 0, _ => -1
  | k + 1, i => if original s i = q then i else linearScanFrom s q k (i + 1)

/-- The linear scan of the spec over all `_N` originals, indices
`0 .. _N - 1`. -/
def linearScan (s : LocaleStrings) (q : List Byte) : Int :=
  linearScanFrom s q s._N.toNat 0

/-- The read at offset `a` belongs to the probe of an index `j` in
`0 .. _N - 1`: it is a byte of the offset word of entry `j` of the table of
originals, or a byte of the `j`-th original, its NUL included. -/
def ProbeRead (s : LocaleStrings) (a : Int) : Prop :=
  ∃ j : Nat, j < s._N.toNat ∧
    ((s._O + 8 * j + 4 ≤ a ∧ a ≤ s._O + 8 * j + 7) ∨
     (entry s s._O j ≤ a ∧ a ≤ entry s s._O j + (original s j).length))

instance (s : LocaleStrings) (a : Int) : Decidable (ProbeRead s a) := by
  unfold ProbeRead; infer_instance

/-- The reader `u` has the members of `s` and a buffer of the same length
with the same bytes, except possibly the four bytes at offsets
`p .. p + 3`. -/
def AgreeExcept (s u : LocaleStrings) (p : Int) : Prop :=
  u._L = s._L ∧ u._N = s._N ∧ u._O = s._O ∧ u._T = s._T ∧
    u._data.length = s._data.length ∧
    ∀ k : Nat, ((k : Int) < p ∨ p + 4 ≤ k) → u._data.getD k 0 = s._data.getD k 0

/-! ## Concrete catalogs -/

/-- A catalog file of 68 bytes with two pairs, `a ↦ x` and `b ↦ y`: header,
table of originals at 28, table of translations at 44, strings from 60. -/
def fileAB : List Byte :=
  [0xde, 0x12, 0x04, 0x95,  0, 0, 0, 0,  2, 0, 0, 0,  28, 0, 0, 0,
   44, 0, 0, 0,  0, 0, 0, 0,  60, 0, 0, 0,
   1, 0, 0, 0,  60, 0, 0, 0,  1, 0, 0, 0,  62, 0, 0, 0,
   1, 0, 0, 0,  64, 0, 0, 0,  1, 0, 0, 0,  66, 0, 0, 0,
   0x61, 0,  0x62, 0,  0x78, 0,  0x79, 0]

/-- The reader after `open` of `fileAB`. -/
def catAB : LocaleStrings :=
  { _data := fileAB, _L := 68, _N := 2, _O := 28, _T := 44, _S := 0, _H := 60 }

/-- A reader whose members are all zero and whose buffer is empty. -/
def blank : LocaleStrings :=
  { _data := [], _L := 0, _N := 0, _O := 0, _T := 0, _S := 0, _H := 0 }

/-- The file `fileAB` with a wrong first byte of the magic number. -/
def fileBadMagic : List Byte :=
  [0xdf, 0x12, 0x04, 0x95,  0, 0, 0, 0,  2, 0, 0, 0,  28, 0, 0, 0,
   44, 0, 0, 0,  0, 0, 0, 0,  60, 0, 0, 0,
   1, 0, 0, 0,  60, 0, 0, 0,  1, 0, 0, 0,  62, 0, 0, 0,
   1, 0, 0, 0,  64, 0, 0, 0,  1, 0, 0, 0,  66, 0, 0, 0,
   0x61, 0,  0x62, 0,  0x78, 0,  0x79, 0]

/-- A file of 28 bytes with a valid header that announces one pair and a
table of originals at offset `0xfffffff0`, which is `-16` as an `int`. -/
def fileNegO : List Byte :=
  [0xde, 0x12, 0x04, 0x95,  0, 0, 0, 0,  1, 0, 0, 0,  0xf0, 0xff, 0xff, 0xff,
   28, 0, 0, 0,  0, 0, 0, 0,  28, 0, 0, 0]

/-- The reader after `open` of `fileNegO`. -/
def catNegO : LocaleStrings :=
  { _data := fileNegO, _L := 28, _N := 1, _O := -16, _T := 28, _S := 0, _H := 28 }

/-- A file of 28 bytes with a valid header and no pair: both tables at
offset 28, the end of the file. -/
def fileEmpty : List Byte :=
  [0xde, 0x12, 0x04, 0x95,  0, 0, 0, 0,  0, 0, 0, 0,  28, 0, 0, 0,
   28, 0, 0, 0,  0, 0, 0, 0,  28, 0, 0, 0]

/-- The reader after `open` of `fileEmpty`. -/
def catEmpty : LocaleStrings :=
  { _data := fileEmpty, _L := 28, _N := 0, _O := 28, _T := 28, _S := 0, _H := 28 }

/-- A file of 38 bytes with a valid header that announces `0x40000000` pairs,
both tables at 28 with the single entry (length 1, offset 36), and the string
`a` at 36. -/
def fileHuge : List Byte :=
  [0xde, 0x12, 0x04, 0x95,  0, 0, 0, 0,  0, 0, 0, 0x40,  28, 0, 0, 0,
   28, 0, 0, 0,  0, 0, 0, 0,  36, 0, 0, 0,
   1, 0, 0, 0,  36, 0, 0, 0,
   0x61, 0]

/-- The reader after `open` of `fileHuge`. -/
def catHuge : LocaleStrings :=
  { _data := fileHuge, _L := 38, _N := 1073741824, _O := 28, _T := 28, _S := 0, _H := 36 }

/-- The reader `catAB` after a further `open`, of `fileBadMagic`, failed. -/
def catStale : LocaleStrings :=
  { _data := fileBadMagic, _L := 68, _N := 2, _O := 28, _T := 44, _S := 0, _H := 60 }

end LocaleStrings

/-! ## The `Run` monad -/

namespace Run

variable {α β : Type}

@[simp] theorem out_pure (a : α) : (pure a : Run α).out = .ok a := rfl

@[simp] theorem reads_pure (a : α) : (pure a : Run α).reads = [] := rfl

theorem out_bind_ok {x : Run α} {a : α} (h : x.out = .ok a) (f : α → Run β) :
    (x >>= f).out = (f a).out := by
  show (Run.bind x f).out = _
  unfold Run.bind
  rw [h]

theorem reads_bind_ok {x : Run α} {a : α} (h : x.out = .ok a) (f : α → Run β) :
    (x >>= f).reads = x.reads ++ (f a).reads := by
  show (Run.bind x f).reads = _
  unfold Run.bind
  rw [h]

theorem out_bind_error {x : Run α} {e : Stop} (h : x.out = .error e) (f : α → Run β) :
    (x >>= f).out = .error e := by
  show (Run.bind x f).out = _
  unfold Run.bind
  rw [h]

theorem reads_bind_error {x : Run α} {e : Stop} (h : x.out = .error e) (f : α → Run β) :
    (x >>= f).reads = x.reads := by
  show (Run.bind x f).reads = _
  unfold Run.bind
  rw [h]

theorem out_bind_inv {x : Run α} {f : α → Run β} {b : β} (h : (x >>= f).out = .ok b) :
    ∃ a, x.out = .ok a ∧ (f a).out = .ok b := by
  change (Run.bind x f).out = .ok b at h
  unfold Run.bind at h
  cases hx : x.out with
  | ok a =>
    rw [hx] at h
    exact ⟨a, rfl, h⟩
  | error e =>
    rw [hx] at h
    simp at h

theorem out_bind_cases (x : Run α) (f : α → Run β) :
    (∃ a, x.out = .ok a ∧ (x >>= f).out = (f a).out) ∨
    (∃ e, x.out = .error e ∧ (x >>= f).out = .error e) := by
  cases hx : x.out with
  | ok a => exact Or.inl ⟨a, rfl, out_bind_ok hx f⟩
  | error e => exact Or.inr ⟨e, rfl, out_bind_error hx f⟩

end Run

theorem wrap32_of_range (x : Int) (h0 : -2147483648 ≤ x) (h1 : x < 2147483648) :
    wrap32 x = x := by
  unfold wrap32; omega

theorem wrap32_range (x : Int) : -2147483648 ≤ wrap32 x ∧ wrap32 x < 2147483648 := by
  unfold wrap32; omega

namespace LocaleStrings

theorem guard_eq (s : LocaleStrings) (hs : Loaded s) : wrap32 (s._L - 4) = s._L - 4 := by
  obtain ⟨h1, h2⟩ := hs
  apply wrap32_of_range <;> omega

theorem byteAt_inside (s : LocaleStrings) (a : Int) (h0 : 0 ≤ a) (h1 : a < s._data.length) :
    byteAt s a = ⟨[a], .ok (s._data.getD a.toNat 0)⟩ := by
  unfold byteAt; rw [if_pos ⟨h0, h1⟩]

theorem load32_inside (s : LocaleStrings) (a : Int) (h0 : 0 ≤ a)
    (h1 : a + 3 < s._data.length) :
    load32 s a = ⟨[a, a + 1, a + 2, a + 3], .ok (word s a)⟩ := by
  unfold load32
  rw [byteAt_inside s a h0 (by omega), byteAt_inside s (a + 1) (by omega) (by omega),
    byteAt_inside s (a + 2) (by omega) (by omega), byteAt_inside s (a + 3) (by omega) (by omega)]
  rfl


theorem intAt_beyond (s : LocaleStrings) (hs : Loaded s) (addr : Int) (h : addr > s._L - 4) :
    intAt s addr = ⟨[], .ok (-1)⟩ := by
  unfold intAt
  rw [guard_eq s hs, if_pos h]; rfl

theorem uintAt_beyond (s : LocaleStrings) (hs : Loaded s) (addr : Int) (h : addr > s._L - 4) :
    uintAt s addr = ⟨[], .ok 4294967295⟩ := by
  unfold uintAt
  rw [guard_eq s hs, if_pos h]; rfl

theorem intAt_inside (s : LocaleStrings) (hs : Loaded s) (addr : Int) (h0 : 0 ≤ addr)
    (h1 : addr ≤ s._L - 4) :
    intAt s addr = ⟨[addr, addr + 1, addr + 2, addr + 3], .ok (wrap32 (word s addr))⟩ := by
  unfold intAt
  rw [guard_eq s hs, if_neg (by omega), load32_inside s addr h0 (by have := hs.1; omega)]
  rfl

theorem uintAt_inside (s : LocaleStrings) (hs : Loaded s) (addr : Int) (h0 : 0 ≤ addr)
    (h1 : addr ≤ s._L - 4) :
    uintAt s addr = ⟨[addr, addr + 1, addr + 2, addr + 3], .ok (word s addr)⟩ := by
  unfold uintAt
  rw [guard_eq s hs, if_neg (by omega), load32_inside s addr h0 (by have := hs.1; omega)]


theorem intAt_congr (s t : LocaleStrings) (hd : s._data = t._data) (hl : s._L = t._L)
    (a : Int) : intAt s a = intAt t a := by
  unfold intAt load32 byteAt
  rw [hd, hl]

theorem readDataHeader_short (s : LocaleStrings) (hs : Loaded s) (hL : s._L < 4) :
    readDataHeader s = ⟨[], .ok (false, s)⟩ := by
  unfold readDataHeader
  rw [uintAt_beyond s hs 0 (by omega)]
  rfl

theorem readDataHeader_reject (s : LocaleStrings) (hs : Loaded s) (hL : 4 ≤ s._L)
    (h : word s 0 ≠ magic ∨ s._L < 28) :
    readDataHeader s = ⟨[0, 1, 2, 3], .ok (false, s)⟩ := by
  unfold readDataHeader
  rw [uintAt_inside s hs 0 (by omega) (by omega)]
  show Run.bind _ _ = _
  simp only [Run.bind]
  rw [if_pos h]
  rfl

theorem readDataHeader_accept (s : LocaleStrings) (hs : Loaded s) (hL : 28 ≤ s._L)
    (h : word s 0 = magic) :
    readDataHeader s =
      ⟨[0, 1, 2, 3, 4, 5, 6, 7, 8, 9, 10, 11, 12, 13, 14, 15, 16, 17, 18, 19, 20, 21, 22, 23,
        24, 25, 26, 27], .ok (true, parsed s)⟩ := by
  unfold readDataHeader
  rw [uintAt_inside s hs 0 (by omega) (by omega)]
  show Run.bind _ _ = _
  simp only [Run.bind]
  rw [if_neg (by omega)]
  have e : ∀ t : LocaleStrings, t._data = s._data → t._L = s._L → ∀ a : Int, 0 ≤ a →
      a ≤ s._L - 4 →
      intAt t a = ⟨[a, a + 1, a + 2, a + 3], .ok (wrap32 (word s a))⟩ := by
    intro t hd hl a h0 h1
    rw [intAt_congr t s hd hl, intAt_inside s hs a h0 h1]
  have b : ∀ (α β : Type) (r : List Int) (a : α) (f : α → Run β),
      Run.bind ⟨r, .ok a⟩ f = ⟨r ++ (f a).reads, (f a).out⟩ := fun _ _ _ _ _ => rfl
  simp (disch := first | rfl | omega) only [bind, e, b]
  rfl


/-! ## Byte-wise comparison -/

theorem strCompare_self (a : List Byte) : strCompare a a = 0 := by
  induction a with
  | nil => rfl
  | cons x xs ih => simp [strCompare, ih]

theorem strCompare_eq_zero : ∀ (a b : List Byte), strCompare a b = 0 → a = b
  | [], [], _ => rfl
  | [], _ :: _, h => by simp [strCompare] at h
  | _ :: _, [], h => by simp [strCompare] at h
  | x :: xs, y :: ys, h => by
    unfold strCompare at h
    split at h
    · omega
    · split at h
      · omega
      · have hxy : x = y := by
          rcases lt_trichotomy x y with h1 | h1 | h1
          · contradiction
          · exact h1
          · contradiction
        rw [hxy, strCompare_eq_zero xs ys h]

theorem strCompare_swap : ∀ (a b : List Byte), strCompare a b < 0 ↔ 0 < strCompare b a
  | [], [] => by simp [strCompare]
  | [], _ :: _ => by simp [strCompare]
  | _ :: _, [] => by simp [strCompare]
  | x :: xs, y :: ys => by
    have ih := strCompare_swap xs ys
    unfold strCompare
    rcases lt_trichotomy x y with h1 | h1 | h1
    · have h2 : ¬ y < x := not_lt.mpr (le_of_lt h1)
      simp [h1, h2]
    · subst h1
      simp [ih]
    · have h2 : ¬ x < y := not_lt.mpr (le_of_lt h1)
      simp [h1, h2]

theorem strCompare_trans : ∀ (a b c : List Byte),
    strCompare a b < 0 → strCompare b c < 0 → strCompare a c < 0
  | [], [], _, h, _ => by simp [strCompare] at h
  | [], _ :: _, [], _, h => by simp [strCompare] at h
  | [], _ :: _, _ :: _, _, _ => by simp [strCompare]
  | _ :: _, [], _, h, _ => by simp [strCompare] at h
  | _ :: _, _ :: _, [], _, h => by simp [strCompare] at h
  | x :: xs, y :: ys, z :: zs, h1, h2 => by
    have ih := strCompare_trans xs ys zs
    unfold strCompare at h1 h2 ⊢
    rcases lt_trichotomy x y with hxy | hxy | hxy
    · rcases lt_trichotomy y z with hyz | hyz | hyz
      · simp [lt_trans hxy hyz]
      · subst hyz; simp [hxy]
      · have : ¬ y < z := not_lt.mpr (le_of_lt hyz)
        simp [this, hyz] at h2
    · subst hxy
      rcases lt_trichotomy x z with hyz | hyz | hyz
      · simp [hyz]
      · subst hyz
        simp at h1 h2 ⊢
        exact ih h1 h2
      · have : ¬ x < z := not_lt.mpr (le_of_lt hyz)
        simp [this, hyz] at h2
    · have : ¬ x < y := not_lt.mpr (le_of_lt hxy)
      simp [this, hxy] at h1

theorem strCompare_ne (a b : List Byte) (h : strCompare a b < 0) : a ≠ b := by
  intro e
  rw [e, strCompare_self] at h
  omega

/-! ## Strings of the buffer -/

theorem scanFrom_out : ∀ (l : List Byte) (a : Int), (0 : Byte) ∈ l →
    (scanFrom a l).out = .ok (l.takeWhile (fun b => b ≠ 0))
  | [], _, h => by simp at h
  | b :: rest, a, h => by
    unfold scanFrom
    by_cases hb : b = 0
    · simp [hb]
    · have hr : (0 : Byte) ∈ rest := by
        rcases List.mem_cons.mp h with h1 | h1
        · exact absurd h1.symm hb
        · exact h1
      have ih := scanFrom_out rest (a + 1) hr
      rw [if_neg hb]
      rw [Run.out_bind_ok (a := ()) rfl, Run.out_bind_ok ih]
      simp [hb]

theorem cstr_data (s : LocaleStrings) (off : Int) (h : Terminated s off) :
    (cstr s (.data off)).out = .ok (stringAt s off) := by
  unfold cstr
  simp only
  rw [if_neg (by have := h.1; omega)]
  exact scanFrom_out _ _ h.2


theorem get_null (s : LocaleStrings) (i : Int) (h : i > s._N) :
    get s i = ⟨[], .ok .null⟩ := by
  unfold get
  rw [if_pos h]; rfl

theorem get_beyond (s : LocaleStrings) (hs : Loaded s) (i : Int) (h : i ≤ s._N)
    (ha : wrap32 (s._O + 8 * i + 4) > s._L - 4) :
    get s i = ⟨[], .ok (.data (-1))⟩ := by
  unfold get
  rw [if_neg (by omega)]
  simp only []
  rw [intAt_beyond s hs _ ha]; rfl

theorem get_stored (s : LocaleStrings) (hs : Loaded s) (i : Int) (h : i ≤ s._N)
    (a : Int) (ha : a = wrap32 (s._O + 8 * i + 4)) (h0 : 0 ≤ a) (h1 : a ≤ s._L - 4) :
    get s i = ⟨[a, a + 1, a + 2, a + 3], .ok (.data (wrap32 (word s a)))⟩ := by
  unfold get
  rw [if_neg (by omega)]
  simp only []
  rw [← ha, intAt_inside s hs a h0 h1]; rfl

theorem getTranslated_beyond (s : LocaleStrings) (hs : Loaded s) (i : Int) (h : i ≤ s._N)
    (ha : wrap32 (s._T + 8 * i + 4) > s._L - 4) :
    getTranslated s i = ⟨[], .ok (.data (-1))⟩ := by
  unfold getTranslated
  rw [if_neg (by omega)]
  simp only []
  rw [intAt_beyond s hs _ ha]; rfl

theorem getTranslated_stored (s : LocaleStrings) (hs : Loaded s) (i : Int) (h : i ≤ s._N)
    (a : Int) (ha : a = wrap32 (s._T + 8 * i + 4)) (h0 : 0 ≤ a) (h1 : a ≤ s._L - 4) :
    getTranslated s i = ⟨[a, a + 1, a + 2, a + 3], .ok (.data (wrap32 (word s a)))⟩ := by
  unfold getTranslated
  rw [if_neg (by omega)]
  simp only []
  rw [← ha, intAt_inside s hs a h0 h1]; rfl

/-- Inside a well-formed catalog `get` returns the stored offset of the entry. -/
theorem get_wf (s : LocaleStrings) (hw : WellFormed s) (i : Int) (h0 : 0 ≤ i)
    (h1 : i < s._N) :
    (get s i).out = .ok (.data (entry s s._O i)) := by
  obtain ⟨⟨hs, _⟩, _, ⟨hO, hOL, _⟩, _⟩ := hw
  have hl := hs.1
  have hz := hs.2
  have e : wrap32 (s._O + 8 * i + 4) = s._O + 8 * i + 4 :=
    wrap32_of_range _ (by omega) (by omega)
  rw [get_stored s hs i (by omega) _ e.symm (by omega) (by omega)]
  rfl

theorem getTranslated_wf (s : LocaleStrings) (hw : WellFormed s) (i : Int) (h0 : 0 ≤ i)
    (h1 : i < s._N) :
    (getTranslated s i).out = .ok (.data (entry s s._T i)) := by
  obtain ⟨⟨hs, _⟩, _, _, ⟨hO, hOL, _⟩⟩ := hw
  have hl := hs.1
  have hz := hs.2
  have e : wrap32 (s._T + 8 * i + 4) = s._T + 8 * i + 4 :=
    wrap32_of_range _ (by omega) (by omega)
  rw [getTranslated_stored s hs i (by omega) _ e.symm (by omega) (by omega)]
  rfl

theorem cstr_original (s : LocaleStrings) (hw : WellFormed s) (i : Int) (h0 : 0 ≤ i)
    (h1 : i < s._N) :
    (cstr s (.data (entry s s._O i))).out = .ok (original s i) := by
  obtain ⟨_, _, ⟨_, _, ht⟩, _⟩ := hw
  have h := ht i.toNat (by omega)
  rw [Int.toNat_of_nonneg h0] at h
  exact cstr_data s _ h

theorem original_lt (s : LocaleStrings) (ha : StrictlyAscending s) :
    ∀ (j i : Nat), i < j → j < s._N.toNat →
      strCompare (original s i) (original s j) < 0 := by
  intro j
  induction j with
  | zero => intro i h; omega
  | succ k ih =>
    intro i hik hk
    have hstep := ha k (by omega)
    by_cases e : i = k
    · subst e; exact hstep
    · exact strCompare_trans _ _ _ (ih i (by omega) (by omega)) hstep

theorem original_lt_int (s : LocaleStrings) (ha : StrictlyAscending s) (i j : Int)
    (h0 : 0 ≤ i) (h1 : i < j) (h2 : j < s._N) :
    strCompare (original s i) (original s j) < 0 := by
  have h := original_lt s ha j.toNat i.toNat (by omega) (by omega)
  rwa [Int.toNat_of_nonneg h0, Int.toNat_of_nonneg (by omega)] at h


theorem count_small (s : LocaleStrings) (hw : WellFormed s) : s._N < 268435456 := by
  obtain ⟨⟨hs, _⟩, _, ⟨hO, hOL, _⟩, _⟩ := hw
  have hl := hs.1
  have hz := hs.2
  omega

/-- One call of the binary search whose probe `get` succeeds: the result is
decided by the comparison of the query with the string probed. -/
theorem getIndexLH_step (s : LocaleStrings) (str : CharPtr) (k : Nat) (l h D : Int)
    (q o : List Byte) (hlh : ¬ h < l)
    (hget : (get s (Int.tdiv (wrap32 (l + h)) 2)).out = .ok (.data D))
    (hq : (cstr s str).out = .ok q) (ho : (cstr s (.data D)).out = .ok o) :
    (getIndexLH s str (k + 1) l h).out =
      (if strCompare q o < 0 then
          getIndexLH s str k l (wrap32 (Int.tdiv (wrap32 (l + h)) 2 - 1))
        else if strCompare q o > 0 then
          getIndexLH s str k (wrap32 (Int.tdiv (wrap32 (l + h)) 2 + 1)) h
        else pure (Int.tdiv (wrap32 (l + h)) 2)).out := by
  conv => lhs; unfold getIndexLH
  rw [if_neg hlh]
  simp only []
  rw [Run.out_bind_ok hget, if_neg (by simp), Run.out_bind_ok hq, Run.out_bind_ok ho]

/-- The binary search on a well-formed, strictly ascending catalog, for a
query that is not greater than the last original. -/
theorem getIndexLH_search (s : LocaleStrings) (hw : WellFormed s)
    (ha : StrictlyAscending s) (str : CharPtr) (q : List Byte)
    (hq : (cstr s str).out = .ok q)
    (hlast : strCompare q (original s (s._N - 1)) ≤ 0) :
    ∀ (fuel : Nat) (l h : Int), 0 ≤ l → l ≤ s._N - 1 → l ≤ h + 1 → h ≤ s._N →
      h - l + 1 < fuel →
      (∀ j : Int, 0 ≤ j → j < l → strCompare (original s j) q < 0) →
      (∀ j : Int, h < j → j < s._N → strCompare q (original s j) < 0) →
      ∃ r : Int, (getIndexLH s str fuel l h).out = .ok r ∧
        ((r = -1 ∧ ∀ j : Int, 0 ≤ j → j < s._N → original s j ≠ q) ∨
         (0 ≤ r ∧ r < s._N ∧ original s r = q)) := by
  have hN := count_small s hw
  intro fuel
  induction fuel with
  | zero => intro l h _ _ _ _ hf; omega
  | succ k ih =>
    intro l h hl0 hlN hlh hhN hf hlo hhi
    by_cases hhl : h < l
    · have e : getIndexLH s str (k + 1) l h = pure (-1) := by
        conv => lhs; unfold getIndexLH
        rw [if_pos hhl]
      rw [e]
      refine ⟨-1, rfl, Or.inl ⟨rfl, ?_⟩⟩
      intro j hj0 hjN
      by_cases hjl : j < l
      · exact strCompare_ne _ _ (hlo j hj0 hjl)
      · exact (strCompare_ne _ _ (hhi j (by omega) hjN)).symm
    · have hw32 : wrap32 (l + h) = l + h := wrap32_of_range _ (by omega) (by omega)
      have hdiv : Int.tdiv (l + h) 2 = (l + h) / 2 :=
        Int.tdiv_eq_ediv (by omega) (by omega)
      have hm : Int.tdiv (wrap32 (l + h)) 2 = (l + h) / 2 := by rw [hw32, hdiv]
      have hml : l ≤ (l + h) / 2 := by omega
      have hmh : (l + h) / 2 ≤ h := by omega
      have hmN : (l + h) / 2 < s._N := by omega
      have hm0 : 0 ≤ (l + h) / 2 := by omega
      have hget := get_wf s hw ((l + h) / 2) hm0 hmN
      have hcm := cstr_original s hw ((l + h) / 2) hm0 hmN
      have hstep := getIndexLH_step s str k l h (entry s s._O ((l + h) / 2)) q
        (original s ((l + h) / 2)) hhl (by rw [hm]; exact hget) hq hcm
      rw [hm] at hstep
      rw [hstep]
      by_cases hc1 : strCompare q (original s ((l + h) / 2)) < 0
      · rw [if_pos hc1]
        rw [wrap32_of_range ((l + h) / 2 - 1) (by omega) (by omega)]
        apply ih l ((l + h) / 2 - 1) hl0 hlN (by omega) (by omega) (by omega) hlo
        intro j hj1 hj2
        by_cases e : j = (l + h) / 2
        · rw [e]; exact hc1
        · exact strCompare_trans _ _ _ hc1
            (original_lt_int s ha ((l + h) / 2) j hm0 (by omega) hj2)
      · rw [if_neg hc1]
        by_cases hc2 : strCompare q (original s ((l + h) / 2)) > 0
        · rw [if_pos hc2]
          rw [wrap32_of_range ((l + h) / 2 + 1) (by omega) (by omega)]
          have hne : (l + h) / 2 ≠ s._N - 1 := by
            intro e
            rw [e] at hc2
            omega
          have hmq : strCompare (original s ((l + h) / 2)) q < 0 :=
            (strCompare_swap _ _).mpr hc2
          apply ih ((l + h) / 2 + 1) h (by omega) (by omega) (by omega) hhN (by omega) _ hhi
          intro j hj0 hj1
          by_cases e : j = (l + h) / 2
          · rw [e]; exact hmq
          · exact strCompare_trans _ _ _
              (original_lt_int s ha j ((l + h) / 2) hj0 (by omega) hmN) hmq
        · rw [if_neg hc2]
          refine ⟨(l + h) / 2, rfl, Or.inr ⟨hm0, hmN, ?_⟩⟩
          exact (strCompare_eq_zero _ _ (by omega)).symm

/-! ## The accessors `intAt` and `uintAt` -/

theorem word_range (s : LocaleStrings) (a : Int) : 0 ≤ word s a ∧ word s a < 4294967296 := by
  unfold word le32
  have h0 := (s._data.getD a.toNat 0).isLt
  have h1 := (s._data.getD (a + 1).toNat 0).isLt
  have h2 := (s._data.getD (a + 2).toNat 0).isLt
  have h3 := (s._data.getD (a + 3).toNat 0).isLt
  omega

/-- C6: in a reader that holds a buffer of `_L` bytes, an offset `addr` past
`_L - 4` makes `intAt` return `-1` and `uintAt` return `0xFFFFFFFF`, both
without a read; an offset with `0 ≤ addr ≤ _L - 4` makes `uintAt` return the
unsigned 32-bit little-endian integer of the bytes `addr .. addr + 3` and
`intAt` the same 32 bits as a signed integer. -/
theorem intAt_uintAt_value (s : LocaleStrings) (hs : Loaded s) (addr : Int) :
    (addr > s._L - 4 →
      intAt s addr = ⟨[], .ok (-1)⟩ ∧ uintAt s addr = ⟨[], .ok 4294967295⟩) ∧
    (0 ≤ addr → addr ≤ s._L - 4 →
      (uintAt s addr).out = .ok (word s addr) ∧
      (intAt s addr).out = .ok (wrap32 (word s addr)) ∧
      (word s addr < 2147483648 → (intAt s addr).out = .ok (word s addr)) ∧
      (2147483648 ≤ word s addr → (intAt s addr).out = .ok (word s addr - 4294967296))) := by
  refine ⟨fun h => ⟨intAt_beyond s hs addr h, uintAt_beyond s hs addr h⟩, fun h0 h1 => ?_⟩
  have hw := word_range s addr
  have hi : (intAt s addr).out = .ok (wrap32 (word s addr)) := by
    rw [intAt_inside s hs addr h0 h1]
  refine ⟨by rw [uintAt_inside s hs addr h0 h1], hi, fun h => ?_, fun h => ?_⟩
  · rw [hi, wrap32_of_range _ (by omega) h]
  · rw [hi]
    have e : wrap32 (word s addr) = word s addr - 4294967296 := by unfold wrap32; omega
    rw [e]

theorem intAt_uintAt_value_witness :
    Loaded catNegO ∧ (uintAt catNegO 12).out = .ok 4294967280 ∧
      (intAt catNegO 12).out = .ok (-16) ∧ intAt catNegO 25 = ⟨[], .ok (-1)⟩ :=
  ⟨by decide,
   ((intAt_uintAt_value catNegO (by decide) 12).2 (by decide) (by decide)).1.trans (by decide),
   ((intAt_uintAt_value catNegO (by decide) 12).2 (by decide) (by decide)).2.1.trans (by decide),
   ((intAt_uintAt_value catNegO (by decide) 25).1 (by decide)).1⟩

/-- C7: the guard of `intAt` and `uintAt` has no lower bound. The file
`fileNegO` is accepted by `open`, which stores the table offset `-16`; the
call `get(0)` then passes the address `-12` to `intAt`, whose guard lets it
through, and the byte at offset `-12`, before the buffer, is read. `uintAt`
does the same at that address. -/
theorem intAt_negative_address :
    (openFile blank (some fileNegO)).out = .ok (true, catNegO) ∧
    get catNegO 0 = ⟨[-12], .error (.badRead (-12))⟩ ∧
    intAt catNegO (-12) = ⟨[-12], .error (.badRead (-12))⟩ ∧
    uintAt catNegO (-12) = ⟨[-12], .error (.badRead (-12))⟩ := by
  decide

/-! ## The header -/

theorem readDataHeader_iff (s : LocaleStrings) (hs : Loaded s) :
    ((readDataHeader s).out = .ok (true, parsed s) ∨
      (readDataHeader s).out = .ok (false, s)) ∧
    ((∃ t, (readDataHeader s).out = .ok (true, t)) ↔ (28 ≤ s._L ∧ word s 0 = magic)) := by
  by_cases hL : 28 ≤ s._L
  · by_cases hm : word s 0 = magic
    · have e := readDataHeader_accept s hs hL hm
      rw [e]
      exact ⟨Or.inl rfl, ⟨fun _ => ⟨hL, hm⟩, fun _ => ⟨_, rfl⟩⟩⟩
    · have e := readDataHeader_reject s hs (by omega) (Or.inl hm)
      rw [e]
      refine ⟨Or.inr rfl, ⟨fun ⟨t, ht⟩ => ?_, fun h => absurd h.2 hm⟩⟩
      simp at ht
  · have e : (readDataHeader s).out = .ok (false, s) := by
      by_cases h4 : 4 ≤ s._L
      · rw [readDataHeader_reject s hs h4 (Or.inr (by omega))]
      · rw [readDataHeader_short s hs (by omega)]
    rw [e]
    refine ⟨Or.inr rfl, ⟨fun ⟨t, ht⟩ => ?_, fun h => absurd h.1 hL⟩⟩
    simp at ht

/-- C5: in a reader that holds a buffer of `_L` bytes, `readDataHeader`
returns, and it returns true exactly when `_L ≥ 28` and the 32-bit
little-endian value at offset 0 is `0x950412de`. Two buffers of the same
length with the same value at offset 0 get the same answer, whatever their
other bytes, the revision at offset 4 among them. -/
theorem readDataHeader_true_iff (s : LocaleStrings) (hs : Loaded s) :
    ((readDataHeader s).out = .ok (true, parsed s) ∨
      (readDataHeader s).out = .ok (false, s)) ∧
    ((∃ t, (readDataHeader s).out = .ok (true, t)) ↔ (28 ≤ s._L ∧ word s 0 = magic)) ∧
    (∀ u : LocaleStrings, Loaded u → u._L = s._L → word u 0 = word s 0 →
      ((∃ t, (readDataHeader u).out = .ok (true, t)) ↔
        (∃ t, (readDataHeader s).out = .ok (true, t)))) := by
  refine ⟨(readDataHeader_iff s hs).1, (readDataHeader_iff s hs).2, fun u hu hl hw => ?_⟩
  rw [(readDataHeader_iff s hs).2, (readDataHeader_iff u hu).2, hl, hw]

theorem readDataHeader_true_iff_witness :
    Loaded catNegO ∧ ∃ t, (readDataHeader catNegO).out = .ok (true, t) :=
  ⟨by decide, (readDataHeader_true_iff catNegO (by decide)).2.1.mpr ⟨by decide, by decide⟩⟩

/-- C10: in a reader that holds a buffer of `_L ≥ 0` bytes of any contents,
every offset `readDataHeader` reads lies in `[0, _L)`: it reads nothing when
`_L < 4`, the bytes `0 .. 3` when it rejects a longer buffer and the bytes
`0 .. 27` when it accepts; it returns false with the members unchanged, or
true with the five members taken from the words at offsets 8 to 24, all
inside the buffer. -/
theorem readDataHeader_reads_inside (s : LocaleStrings) (hs : Loaded s) :
    (∀ a ∈ (readDataHeader s).reads, 0 ≤ a ∧ a < s._L) ∧
    ((readDataHeader s = ⟨[], .ok (false, s)⟩ ∧ s._L < 4) ∨
     (readDataHeader s = ⟨[0, 1, 2, 3], .ok (false, s)⟩ ∧ 4 ≤ s._L) ∨
     (readDataHeader s =
        ⟨[0, 1, 2, 3, 4, 5, 6, 7, 8, 9, 10, 11, 12, 13, 14, 15, 16, 17, 18, 19, 20, 21, 22,
          23, 24, 25, 26, 27], .ok (true, parsed s)⟩ ∧ 28 ≤ s._L)) := by
  by_cases h4 : 4 ≤ s._L
  · by_cases hc : word s 0 ≠ magic ∨ s._L < 28
    · have e := readDataHeader_reject s hs h4 hc
      refine ⟨?_, Or.inr (Or.inl ⟨e, h4⟩)⟩
      rw [e]
      intro a ha
      simp only [List.mem_cons, List.mem_singleton, List.not_mem_nil, or_false] at ha
      omega
    · have hL : 28 ≤ s._L := by
        by_contra hn
        exact hc (Or.inr (by omega))
      have hm : word s 0 = magic := by
        by_contra hn
        exact hc (Or.inl hn)
      have e := readDataHeader_accept s hs hL hm
      refine ⟨?_, Or.inr (Or.inr ⟨e, hL⟩)⟩
      rw [e]
      intro a ha
      simp only [List.mem_cons, List.mem_singleton, List.not_mem_nil, or_false] at ha
      omega
  · have e := readDataHeader_short s hs (by omega)
    refine ⟨?_, Or.inl ⟨e, by omega⟩⟩
    rw [e]
    intro a ha
    simp at ha

theorem readDataHeader_reads_inside_witness :
    Loaded catAB ∧ ∀ a ∈ (readDataHeader catAB).reads, 0 ≤ a ∧ a < catAB._L :=
  ⟨by decide, (readDataHeader_reads_inside catAB (by decide)).1⟩

/-- C4: the guard of `get` and `getTranslated` is `i > _N`. In the reader of
`fileAB`, whose count is 2, the index `i = 2` passes it: `get(2)` reads the
bytes 48 to 51, the first entry of the table of translations, and returns the
position 64; `getTranslated(2)` reads the bytes 64 to 67, which are string
data, and returns a position outside the buffer. Neither returns null. -/
theorem get_at_count :
    (openFile blank (some fileAB)).out = .ok (true, catAB) ∧ catAB._N = 2 ∧
    get catAB 2 = ⟨[48, 49, 50, 51], .ok (.data 64)⟩ ∧
    getTranslated catAB 2 = ⟨[64, 65, 66, 67], .ok (.data 7929976)⟩ := by
  decide

/-- C13: the guard of `get` and `getTranslated` has no lower bound. In the
reader of `fileAB` the index `-1` passes it: `get(-1)` reads the bytes 24 to
27, the last word of the header, and returns the position 60;
`getTranslated(-1)` reads the bytes 40 to 43 and returns the position 62.
Neither returns null. -/
theorem get_negative_index :
    (openFile blank (some fileAB)).out = .ok (true, catAB) ∧
    get catAB (-1) = ⟨[24, 25, 26, 27], .ok (.data 60)⟩ ∧
    getTranslated catAB (-1) = ⟨[40, 41, 42, 43], .ok (.data 62)⟩ := by
  decide

theorem dataLoad_some (s : LocaleStrings) (bytes : List Byte)
    (hlen : bytes.length < 2147483648) :
    dataLoad s (some bytes) = pure (true, { s with _L := bytes.length, _data := bytes }) := by
  have hw : wrap32 (bytes.length : Int) = bytes.length :=
    wrap32_of_range _ (by omega) (by omega)
  unfold dataLoad
  simp only [hw]
  rw [if_neg (by omega)]
  simp

theorem openFile_some (s : LocaleStrings) (bytes : List Byte)
    (hlen : bytes.length < 2147483648) :
    (openFile s (some bytes)).out =
      (readDataHeader { s with _L := bytes.length, _data := bytes }).out := by
  unfold openFile
  rw [dataLoad_some s bytes hlen]
  rw [Run.out_bind_ok (Run.out_pure _)]
  simp

/-- C9, refuted as stated: the reader `catAB` has opened a valid catalog of
two pairs; `open` of `fileBadMagic` then returns false and leaves the reader
`catStale`, whose count is still 2, and `getIndex` finds the query `a` at
index 0 of the new buffer. -/
theorem openFile_failure_stale :
    (openFile blank (some fileAB)).out = .ok (true, catAB) ∧
    (openFile catAB (some fileBadMagic)).out = .ok (false, catStale) ∧
    catStale._N = 2 ∧ (getIndex 3 catStale (.arg [0x61, 0])).out = .ok 0 := by
  decide

/-- C9, amended: when the file can be loaded and header validation fails
(wrong magic or fewer than 28 bytes), `open` returns false and the reader
holds the new buffer and its length, while count and the other four header
members keep the values they had before the call; count is 0 afterwards only
if it was 0 before. -/
theorem openFile_failure_keeps (s : LocaleStrings) (bytes : List Byte)
    (hlen : bytes.length < 2147483648)
    (hbad : bytes.length < 28 ∨ word { s with _data := bytes } 0 ≠ magic) :
    (openFile s (some bytes)).out =
      .ok (false, { s with _L := bytes.length, _data := bytes }) := by
  rw [openFile_some s bytes hlen]
  have hs : Loaded { s with _L := bytes.length, _data := bytes } := ⟨rfl, hlen⟩
  by_cases h4 : 4 ≤ (bytes.length : Int)
  · rw [readDataHeader_reject _ hs h4 ?_]
    rcases hbad with h | h
    · exact Or.inr (by show (bytes.length : Int) < 28; omega)
    · exact Or.inl h
  · rw [readDataHeader_short _ hs (by show (bytes.length : Int) < 4; omega)]

theorem openFile_failure_keeps_witness :
    fileBadMagic.length < 2147483648 ∧
      (fileBadMagic.length < 28 ∨ word { catAB with _data := fileBadMagic } 0 ≠ magic) ∧
      (openFile catAB (some fileBadMagic)).out = .ok (false, catStale) :=
  ⟨by decide, by decide,
   (openFile_failure_keeps catAB fileBadMagic (by decide) (by decide)).trans (by decide)⟩

/-! ## The search on a well-formed catalog -/

/-- C1: in a well-formed catalog whose `_N` originals are in strictly
ascending byte-wise order, for every index `0 ≤ i < _N` and enough recursion
budget, `get(i)` returns the position of the `i`-th original,
`getTranslated(i)` the position of the `i`-th translation, and `translate`
applied to the result of `get(i)` returns exactly the result of
`getTranslated(i)`. -/
theorem translate_get (s : LocaleStrings) (hw : WellFormed s) (ha : StrictlyAscending s)
    (i : Int) (h0 : 0 ≤ i) (h1 : i < s._N) (fuel : Nat) (hf : s._N + 1 < fuel) :
    ∃ p t : CharPtr, (get s i).out = .ok p ∧ (getTranslated s i).out = .ok t ∧
      (translate fuel s p).out = .ok t ∧
      (cstr s p).out = .ok (original s i) ∧ t = .data (entry s s._T i) := by
  have hq := cstr_original s hw i h0 h1
  have hlast : strCompare (original s i) (original s (s._N - 1)) ≤ 0 := by
    by_cases e : i = s._N - 1
    · rw [e, strCompare_self]
    · exact le_of_lt (original_lt_int s ha i (s._N - 1) h0 (by omega) (by omega))
  obtain ⟨r, hr, hcase⟩ := getIndexLH_search s hw ha (.data (entry s s._O i)) (original s i)
    hq hlast fuel 0 s._N (le_refl 0) (by omega) (by omega) (le_refl _) (by omega)
    (fun j hj0 hj1 => by omega) (fun j hj0 hj1 => by omega)
  have hri : r = i := by
    rcases hcase with ⟨_, hn⟩ | ⟨hr0, hrN, hre⟩
    · exact absurd rfl (hn i h0 h1)
    · by_contra hne
      rcases lt_or_gt_of_ne hne with hlt | hgt
      · exact strCompare_ne _ _ (original_lt_int s ha r i hr0 hlt h1) hre
      · exact strCompare_ne _ _ (original_lt_int s ha i r h0 hgt hrN) hre.symm
  refine ⟨_, _, get_wf s hw i h0 h1, getTranslated_wf s hw i h0 h1, ?_, hq, rfl⟩
  unfold translate getIndex
  rw [Run.out_bind_ok hr, hri, if_neg (by omega)]
  exact getTranslated_wf s hw i h0 h1

theorem translate_get_witness :
    WellFormed catAB ∧ StrictlyAscending catAB ∧
      ∃ p t : CharPtr, (get catAB 1).out = .ok p ∧ (getTranslated catAB 1).out = .ok t ∧
        (translate 4 catAB p).out = .ok t ∧
        (cstr catAB p).out = .ok (original catAB 1) ∧ t = .data (entry catAB catAB._T 1) :=
  ⟨by decide, by decide,
   translate_get catAB (by decide) (by decide) 1 (by decide) (by decide) 4 (by decide)⟩

/-- C2: the search starts on the range `0 .. _N`, not `0 .. _N - 1`. In the
well-formed catalog `catAB` (`a ↦ x`, `b ↦ y`) the query `x` equals no
original and is greater than both; the search probes index 2, whose entry is
the first entry of the table of translations, finds the string `x` there, and
`translate` returns the position 7929976, outside the buffer, instead of the
query. In the catalog `catEmpty` with no pair, every query makes the search
probe index 0, past the end of the buffer, and read the byte at offset `-1`. -/
theorem translate_absent_query :
    WellFormed catAB ∧ original catAB 0 = [0x61] ∧ original catAB 1 = [0x62] ∧
    (translate 4 catAB (.arg [0x78, 0])).out = .ok (.data 7929976) ∧
    (openFile blank (some fileEmpty)).out = .ok (true, catEmpty) ∧
    translate 4 catEmpty (.arg [0x61, 0]) = ⟨[-1], .error (.badRead (-1))⟩ := by
  decide

/-- C3: in the well-formed, strictly ascending catalog `catAB` the linear
scan over the two originals does not find the query `x` and gives `-1`, while
`getIndex` returns 2, the index one past the last original. -/
theorem getIndex_differs_from_linearScan :
    WellFormed catAB ∧ StrictlyAscending catAB ∧ catAB._N = 2 ∧
    linearScan catAB [0x78] = -1 ∧
    (getIndex 4 catAB (.arg [0x78, 0])).out = .ok 2 := by
  decide

/-! ## The offsets read by the search -/

theorem scanFrom_reads : ∀ (l : List Byte) (a : Int), (0 : Byte) ∈ l →
    ∀ x ∈ (scanFrom a l).reads,
      a ≤ x ∧ x ≤ a + ((l.takeWhile (fun b => b ≠ 0)).length : Nat)
  | [], _, h => by simp at h
  | b :: rest, a, h => by
    intro x hx
    unfold scanFrom at hx
    by_cases hb : b = 0
    · rw [if_pos hb] at hx
      simp only [List.mem_singleton] at hx
      subst hx
      constructor <;> omega
    · have hr : (0 : Byte) ∈ rest := by
        rcases List.mem_cons.mp h with h1 | h1
        · exact absurd h1.symm hb
        · exact h1
      have ih := scanFrom_reads rest (a + 1) hr
      have ho := scanFrom_out rest (a + 1) hr
      rw [if_neg hb] at hx
      rw [Run.reads_bind_ok (a := ()) rfl, Run.reads_bind_ok ho] at hx
      have hlen : ((b :: rest).takeWhile (fun b => b ≠ 0)).length =
          (rest.takeWhile (fun b => b ≠ 0)).length + 1 := by
        simp [List.takeWhile, hb]
      rw [hlen]
      simp only [List.mem_append, List.mem_singleton, Run.reads_pure, List.not_mem_nil,
        or_false] at hx
      rcases hx with hx | hx
      · subst hx
        constructor <;> omega
      · have := ih x hx
        push_cast
        constructor <;> omega

theorem cstr_data_reads (s : LocaleStrings) (off : Int) (h : Terminated s off) :
    ∀ x ∈ (cstr s (.data off)).reads, off ≤ x ∧ x ≤ off + ((stringAt s off).length : Nat) := by
  unfold cstr
  simp only
  rw [if_neg (by have := h.1; omega)]
  exact scanFrom_reads _ _ h.2

theorem get_wf_reads (s : LocaleStrings) (hw : WellFormed s) (i : Int) (h0 : 0 ≤ i)
    (h1 : i < s._N) :
    ∀ x ∈ (get s i).reads, s._O + 8 * i + 4 ≤ x ∧ x ≤ s._O + 8 * i + 7 := by
  obtain ⟨⟨hs, _⟩, _, ⟨hO, hOL, _⟩, _⟩ := hw
  have hl := hs.1
  have hz := hs.2
  have e : wrap32 (s._O + 8 * i + 4) = s._O + 8 * i + 4 :=
    wrap32_of_range _ (by omega) (by omega)
  rw [get_stored s hs i (by omega) _ e.symm (by omega) (by omega)]
  intro x hx
  simp only [List.mem_cons, List.mem_singleton, List.not_mem_nil, or_false] at hx
  omega

theorem probeRead_of (s : LocaleStrings) (hw : WellFormed s) (i : Int) (h0 : 0 ≤ i)
    (h1 : i < s._N) :
    (∀ x ∈ (get s i).reads, ProbeRead s x) ∧
    (∀ x ∈ (cstr s (.data (entry s s._O i))).reads, ProbeRead s x) := by
  have hi : ((i.toNat : Nat) : Int) = i := Int.toNat_of_nonneg h0
  constructor
  · intro x hx
    have := get_wf_reads s hw i h0 h1 x hx
    exact ⟨i.toNat, by omega, Or.inl (by rw [hi]; exact this)⟩
  · intro x hx
    obtain ⟨_, _, ⟨_, _, ht⟩, _⟩ := hw
    have h := ht i.toNat (by omega)
    rw [hi] at h
    have := cstr_data_reads s _ h x hx
    exact ⟨i.toNat, by omega, Or.inr (by rw [hi]; exact this)⟩

theorem getIndexLH_step_reads (s : LocaleStrings) (str : CharPtr) (k : Nat) (l h D : Int)
    (q o : List Byte) (hlh : ¬ h < l)
    (hget : (get s (Int.tdiv (wrap32 (l + h)) 2)).out = .ok (.data D))
    (hq : (cstr s str).out = .ok q) (ho : (cstr s (.data D)).out = .ok o) :
    (getIndexLH s str (k + 1) l h).reads =
      (get s (Int.tdiv (wrap32 (l + h)) 2)).reads ++ ((cstr s str).reads ++
        ((cstr s (.data D)).reads ++
          (if strCompare q o < 0 then
              getIndexLH s str k l (wrap32 (Int.tdiv (wrap32 (l + h)) 2 - 1))
            else if strCompare q o > 0 then
              getIndexLH s str k (wrap32 (Int.tdiv (wrap32 (l + h)) 2 + 1)) h
            else pure (Int.tdiv (wrap32 (l + h)) 2)).reads)) := by
  conv => lhs; unfold getIndexLH
  rw [if_neg hlh]
  simp only []
  rw [Run.reads_bind_ok hget, if_neg (by simp), Run.reads_bind_ok hq, Run.reads_bind_ok ho]

/-- The offsets read by the binary search on a well-formed catalog, for a
query that is smaller than the last original: the characters of the query and
probes of indices `0 .. _N - 1`. -/
theorem getIndexLH_search_reads (s : LocaleStrings) (hw : WellFormed s)
    (str : CharPtr) (q : List Byte) (hq : (cstr s str).out = .ok q)
    (hlast : strCompare q (original s (s._N - 1)) ≤ 0) :
    ∀ (fuel : Nat) (l h : Int), 0 ≤ l → l ≤ s._N - 1 → h ≤ s._N →
      ∀ a ∈ (getIndexLH s str fuel l h).reads, a ∈ (cstr s str).reads ∨ ProbeRead s a := by
  have hN := count_small s hw
  intro fuel
  induction fuel with
  | zero =>
    intro l h _ _ _ a ha
    have e : getIndexLH s str 0 l h = Run.stop .fuel := by
      conv => lhs; unfold getIndexLH
    rw [e] at ha
    simp [Run.stop] at ha
  | succ k ih =>
    intro l h hl0 hlN hhN a ha
    by_cases hhl : h < l
    · have e : getIndexLH s str (k + 1) l h = pure (-1) := by
        conv => lhs; unfold getIndexLH
        rw [if_pos hhl]
      rw [e] at ha
      simp at ha
    · have hw32 : wrap32 (l + h) = l + h := wrap32_of_range _ (by omega) (by omega)
      have hdiv : Int.tdiv (l + h) 2 = (l + h) / 2 :=
        Int.tdiv_eq_ediv (by omega) (by omega)
      have hm : Int.tdiv (wrap32 (l + h)) 2 = (l + h) / 2 := by rw [hw32, hdiv]
      have hmN : (l + h) / 2 < s._N := by omega
      have hm0 : 0 ≤ (l + h) / 2 := by omega
      have hget := get_wf s hw ((l + h) / 2) hm0 hmN
      have hcm := cstr_original s hw ((l + h) / 2) hm0 hmN
      have hpr := probeRead_of s hw ((l + h) / 2) hm0 hmN
      have hstep := getIndexLH_step_reads s str k l h (entry s s._O ((l + h) / 2)) q
        (original s ((l + h) / 2)) hhl (by rw [hm]; exact hget) hq hcm
      rw [hm] at hstep
      rw [hstep] at ha
      simp only [List.mem_append] at ha
      rcases ha with ha | ha | ha | ha
      · exact Or.inr (hpr.1 a ha)
      · exact Or.inl ha
      · exact Or.inr (hpr.2 a ha)
      · by_cases hc1 : strCompare q (original s ((l + h) / 2)) < 0
        · rw [if_pos hc1, wrap32_of_range ((l + h) / 2 - 1) (by omega) (by omega)] at ha
          exact ih l ((l + h) / 2 - 1) hl0 hlN (by omega) a ha
        · rw [if_neg hc1] at ha
          by_cases hc2 : strCompare q (original s ((l + h) / 2)) > 0
          · rw [if_pos hc2, wrap32_of_range ((l + h) / 2 + 1) (by omega) (by omega)] at ha
            have hne : (l + h) / 2 ≠ s._N - 1 := by
              intro e
              rw [e] at hc2
              omega
            exact ih ((l + h) / 2 + 1) h (by omega) (by omega) hhN a ha
          · rw [if_neg hc2] at ha
            simp at ha

/-- C18: in a well-formed catalog with `_N ≥ 1` strictly ascending originals,
for a query that equals none of them and is byte-wise smaller than the last
original, and enough recursion budget, `getIndex` returns `-1`, `translate`
returns the query pointer itself, and every offset the run reads is a
character of the query or belongs to the probe of an index in
`0 .. _N - 1`. -/
theorem translate_smaller_query (s : LocaleStrings) (hw : WellFormed s)
    (ha : StrictlyAscending s) (hN : 1 ≤ s._N) (str : CharPtr) (q : List Byte)
    (hq : (cstr s str).out = .ok q)
    (hne : ∀ j : Int, 0 ≤ j → j < s._N → original s j ≠ q)
    (hlt : strCompare q (original s (s._N - 1)) < 0)
    (fuel : Nat) (hf : s._N + 1 < fuel) :
    (getIndex fuel s str).out = .ok (-1) ∧ (translate fuel s str).out = .ok str ∧
    (∀ a ∈ (translate fuel s str).reads, a ∈ (cstr s str).reads ∨ ProbeRead s a) := by
  obtain ⟨r, hr, hcase⟩ := getIndexLH_search s hw ha str q hq (le_of_lt hlt) fuel 0 s._N
    (le_refl 0) (by omega) (by omega) (le_refl _) (by omega)
    (fun j hj0 hj1 => by omega) (fun j hj0 hj1 => by omega)
  have hr1 : r = -1 := by
    rcases hcase with ⟨h, _⟩ | ⟨hr0, hrN, hre⟩
    · exact h
    · exact absurd hre (hne r hr0 hrN)
  rw [hr1] at hr
  have hreads := getIndexLH_search_reads s hw str q hq (le_of_lt hlt) fuel 0 s._N
    (le_refl 0) (by omega) (le_refl _)
  refine ⟨hr, ?_, ?_⟩
  · unfold translate getIndex
    rw [Run.out_bind_ok hr, if_pos (by omega)]
    rfl
  · intro a h
    unfold translate getIndex at h
    rw [Run.reads_bind_ok hr, if_pos (by omega)] at h
    simp only [Run.reads_pure, List.append_nil] at h
    exact hreads a h

theorem translate_smaller_query_witness :
    WellFormed catAB ∧ StrictlyAscending catAB ∧
      (getIndex 4 catAB (.arg [0x61, 0x61, 0])).out = .ok (-1) ∧
      (translate 4 catAB (.arg [0x61, 0x61, 0])).out = .ok (.arg [0x61, 0x61, 0]) ∧
      (∀ a ∈ (translate 4 catAB (.arg [0x61, 0x61, 0])).reads,
        a ∈ (cstr catAB (.arg [0x61, 0x61, 0])).reads ∨ ProbeRead catAB a) :=
  ⟨by decide, by decide,
   translate_smaller_query catAB (by decide) (by decide) (by decide) (.arg [0x61, 0x61, 0])
     [0x61, 0x61] (by decide)
     (fun j h0 h1 => by
       have h : j = 0 ∨ j = 1 := by
         have : j < 2 := h1
         omega
       rcases h with h | h <;> subst h <;> decide)
     (by decide) 4 (by decide)⟩

/-! ## The binary search on arbitrary buffers -/

theorem getIndexLH_zero (s : LocaleStrings) (str : CharPtr) (l h : Int) :
    getIndexLH s str 0 l h = Run.stop .fuel := by
  conv => lhs; unfold getIndexLH

theorem getIndexLH_lt (s : LocaleStrings) (str : CharPtr) (k : Nat) (l h : Int)
    (hhl : h < l) : getIndexLH s str (k + 1) l h = pure (-1) := by
  conv => lhs; unfold getIndexLH
  rw [if_pos hhl]

theorem getIndexLH_succ (s : LocaleStrings) (str : CharPtr) (k : Nat) (l h : Int)
    (hhl : ¬ h < l) :
    getIndexLH s str (k + 1) l h =
      (get s (Int.tdiv (wrap32 (l + h)) 2) >>= fun ms =>
        if ms = .null then pure (-1)
        else cstr s str >>= fun a => cstr s ms >>= fun b =>
          if strCompare a b < 0 then
            getIndexLH s str k l (wrap32 (Int.tdiv (wrap32 (l + h)) 2 - 1))
          else if strCompare a b > 0 then
            getIndexLH s str k (wrap32 (Int.tdiv (wrap32 (l + h)) 2 + 1)) h
          else pure (Int.tdiv (wrap32 (l + h)) 2)) := by
  conv => lhs; unfold getIndexLH
  rw [if_neg hhl]

theorem reads_bind_prefix {α β : Type} (x : Run α) (f : α → Run β) :
    x.reads <+: (x >>= f).reads := by
  rcases hx : x.out with e | a
  · rw [Run.reads_bind_error hx]
  · rw [Run.reads_bind_ok hx]
    exact List.prefix_append _ _

theorem midpoint_eq (l h : Int) (hl : 0 ≤ l) (hlh : l ≤ h) (hh : l + h < 2147483648) :
    Int.tdiv (wrap32 (l + h)) 2 = (l + h) / 2 := by
  rw [wrap32_of_range _ (by omega) hh]
  exact Int.tdiv_eq_ediv (by omega) (by omega)

/-- C16, refuted as stated: for `l = h = 2^30`, bounds that the count
`0x40000000` of the accepted file `fileHuge` allows, the sum `l + h` wraps
to `-2^31` and the midpoint is `-2^30`, below `l`; the mathematical
midpoint is `2^30`. -/
theorem midpoint_wraps :
    (openFile blank (some fileHuge)).out = .ok (true, catHuge) ∧
    (0 : Int) ≤ 1073741824 ∧ (1073741824 : Int) ≤ catHuge._N ∧
    Int.tdiv (wrap32 (1073741824 + 1073741824)) 2 = -1073741824 ∧
    ((1073741824 : Int) + 1073741824) / 2 = 1073741824 := by
  decide

/-- C16, amended: for bounds `0 ≤ l ≤ h` whose sum is below `2^31` (every
`h` up to `2^30 - 1`), the midpoint `(l + h) / 2` of `getIndex` in 32-bit
arithmetic is the mathematical floor of `(l + h) / 2`, satisfies
`l ≤ m ≤ h`, and is the index the call probes first. -/
theorem midpoint_floor (s : LocaleStrings) (str : CharPtr) (k : Nat) (l h : Int)
    (hl : 0 ≤ l) (hlh : l ≤ h) (hh : l + h < 2147483648) :
    Int.tdiv (wrap32 (l + h)) 2 = (l + h) / 2 ∧
    l ≤ (l + h) / 2 ∧ (l + h) / 2 ≤ h ∧
    (get s ((l + h) / 2)).reads <+: (getIndexLH s str (k + 1) l h).reads := by
  have e := midpoint_eq l h hl hlh hh
  refine ⟨e, by omega, by omega, ?_⟩
  rw [getIndexLH_succ s str k l h (by omega), e]
  exact reads_bind_prefix _ _

theorem midpoint_floor_witness :
    Int.tdiv (wrap32 (0 + 2)) 2 = (0 + 2) / 2 ∧
      (0 : Int) ≤ (0 + 2) / 2 ∧ ((0 : Int) + 2) / 2 ≤ 2 ∧
      (get catAB ((0 + 2) / 2)).reads <+:
        (getIndexLH catAB (.arg [0x62, 0]) (3 + 1) 0 2).reads :=
  midpoint_floor catAB (.arg [0x62, 0]) 3 0 2 (by decide) (by decide) (by decide)

theorem get_nonnull_le (s : LocaleStrings) (i : Int) (p : CharPtr)
    (h : (get s i).out = .ok p) (hp : p ≠ .null) : i ≤ s._N := by
  by_contra hn
  rw [get_null s i (by omega)] at h
  simp at h
  exact hp h.symm

/-- C17: for every buffer, every query and bounds `0 ≤ l`, `h < 2^30` (so
that `l + h` does not wrap, as for every `h ≤ count` with such a count):
whenever `getIndex(str, l, h)` returns a value `r`, either `r = -1`, or
`l ≤ r ≤ h`, `get(r)` returns a non-null string and that string is byte-wise
equal to the query. For `l = 0` and `h = count`, `getIndex(str)` returns
only `-1` or an index in `0 .. count` with that property. -/
theorem getIndexLH_found (s : LocaleStrings) (str : CharPtr) :
    ∀ (fuel : Nat) (l h r : Int), 0 ≤ l → h < 1073741824 →
      (getIndexLH s str fuel l h).out = .ok r →
      r = -1 ∨ (l ≤ r ∧ r ≤ h ∧ ∃ (p : CharPtr) (a : List Byte),
        (get s r).out = .ok p ∧ p ≠ .null ∧ (cstr s str).out = .ok a ∧
          (cstr s p).out = .ok a) := by
  intro fuel
  induction fuel with
  | zero =>
    intro l h r _ _ hr
    rw [getIndexLH_zero] at hr
    simp [Run.stop] at hr
  | succ k ih =>
    intro l h r hl hh hr
    by_cases hhl : h < l
    · rw [getIndexLH_lt s str k l h hhl] at hr
      simp at hr
      exact Or.inl hr.symm
    · rw [getIndexLH_succ s str k l h hhl,
        midpoint_eq l h hl (by omega) (by omega)] at hr
      obtain ⟨ms, hms, hr⟩ := Run.out_bind_inv hr
      by_cases hnull : ms = .null
      · rw [if_pos hnull] at hr
        simp at hr
        exact Or.inl hr.symm
      · rw [if_neg hnull] at hr
        obtain ⟨a, ha, hr⟩ := Run.out_bind_inv hr
        obtain ⟨b, hb, hr⟩ := Run.out_bind_inv hr
        by_cases hc1 : strCompare a b < 0
        · rw [if_pos hc1, wrap32_of_range _ (by omega) (by omega)] at hr
          rcases ih l ((l + h) / 2 - 1) r hl (by omega) hr with h1 | ⟨h1, h2, h3⟩
          · exact Or.inl h1
          · exact Or.inr ⟨h1, by omega, h3⟩
        · rw [if_neg hc1] at hr
          by_cases hc2 : strCompare a b > 0
          · rw [if_pos hc2, wrap32_of_range _ (by omega) (by omega)] at hr
            rcases ih ((l + h) / 2 + 1) h r (by omega) hh hr with h1 | ⟨h1, h2, h3⟩
            · exact Or.inl h1
            · exact Or.inr ⟨by omega, h2, h3⟩
          · rw [if_neg hc2] at hr
            simp at hr
            have hab : a = b := strCompare_eq_zero a b (by omega)
            refine Or.inr ⟨by omega, by omega, ms, a, ?_, hnull, ha, ?_⟩
            · rw [← hr]; exact hms
            · rw [hab]; exact hb

theorem getIndexLH_found_witness :
    (getIndexLH catAB (.arg [0x62, 0]) 4 0 2).out = .ok 1 ∧
      ((1 : Int) = -1 ∨ ((0 : Int) ≤ 1 ∧ (1 : Int) ≤ 2 ∧ ∃ (p : CharPtr) (a : List Byte),
        (get catAB 1).out = .ok p ∧ p ≠ .null ∧ (cstr catAB (.arg [0x62, 0])).out = .ok a ∧
          (cstr catAB p).out = .ok a)) :=
  ⟨by decide, getIndexLH_found catAB (.arg [0x62, 0]) 4 0 2 1 (by decide) (by decide)
    (by decide)⟩

/-! ## Termination of the search -/

theorem bind_noFuel {α β : Type} {x : Run α} {f : α → Run β} (hx : x.out ≠ .error .fuel)
    (hf : ∀ a, (f a).out ≠ .error .fuel) : (x >>= f).out ≠ .error .fuel := by
  rcases Run.out_bind_cases x f with ⟨a, _, e⟩ | ⟨e, he, e2⟩
  · rw [e]; exact hf a
  · rw [e2]
    intro hc
    injection hc with hc
    rw [he, hc] at hx
    exact hx rfl

theorem pure_noFuel {α : Type} (a : α) : (pure a : Run α).out ≠ .error .fuel := by
  simp

theorem byteAt_noFuel (s : LocaleStrings) (a : Int) : (byteAt s a).out ≠ .error .fuel := by
  unfold byteAt
  split <;> simp

theorem load32_noFuel (s : LocaleStrings) (a : Int) : (load32 s a).out ≠ .error .fuel := by
  unfold load32
  exact bind_noFuel (byteAt_noFuel s _) fun _ =>
    bind_noFuel (byteAt_noFuel s _) fun _ =>
      bind_noFuel (byteAt_noFuel s _) fun _ =>
        bind_noFuel (byteAt_noFuel s _) fun _ => pure_noFuel _

theorem intAt_noFuel (s : LocaleStrings) (a : Int) : (intAt s a).out ≠ .error .fuel := by
  unfold intAt
  split
  · exact pure_noFuel _
  · exact bind_noFuel (load32_noFuel s a) fun _ => pure_noFuel _

theorem get_noFuel (s : LocaleStrings) (i : Int) : (get s i).out ≠ .error .fuel := by
  unfold get
  split
  · exact pure_noFuel _
  · exact bind_noFuel (intAt_noFuel s _) fun _ => pure_noFuel _

theorem scanFrom_noFuel : ∀ (l : List Byte) (a : Int), (scanFrom a l).out ≠ .error .fuel
  | [], _ => by simp [scanFrom]
  | b :: rest, a => by
    unfold scanFrom
    split
    · simp
    · exact bind_noFuel (by simp) fun _ =>
        bind_noFuel (scanFrom_noFuel rest (a + 1)) fun _ => pure_noFuel _

theorem cstr_noFuel (s : LocaleStrings) (p : CharPtr) : (cstr s p).out ≠ .error .fuel := by
  cases p with
  | null => simp [cstr, Run.stop]
  | arg bytes => simp [cstr]
  | data off =>
    unfold cstr
    simp only
    split
    · simp
    · exact scanFrom_noFuel _ _

theorem getIndexLH_noFuel (s : LocaleStrings) (str : CharPtr) :
    ∀ (fuel : Nat) (l h : Int), 0 ≤ l → h < 1073741824 → 0 < fuel → h - l + 1 < fuel →
      (getIndexLH s str fuel l h).out ≠ .error .fuel := by
  intro fuel
  induction fuel with
  | zero => intro l h _ _ h0; omega
  | succ k ih =>
    intro l h hl hh _ hf
    by_cases hhl : h < l
    · rw [getIndexLH_lt s str k l h hhl]
      exact pure_noFuel _
    · rw [getIndexLH_succ s str k l h hhl, midpoint_eq l h hl (by omega) (by omega)]
      refine bind_noFuel (get_noFuel s _) fun ms => ?_
      split
      · exact pure_noFuel _
      · refine bind_noFuel (cstr_noFuel s _) fun a => bind_noFuel (cstr_noFuel s _) fun b => ?_
        split
        · rw [wrap32_of_range _ (by omega) (by omega)]
          exact ih l ((l + h) / 2 - 1) hl (by omega) (by omega) (by omega)
        · split
          · rw [wrap32_of_range _ (by omega) (by omega)]
            exact ih ((l + h) / 2 + 1) h (by omega) hh (by omega) (by omega)
          · exact pure_noFuel _

/-- C15, refuted as stated: in the reader of the accepted file `fileHuge`,
whose count is `2^30`, the call with `l = h = 2^30` and the query `b` computes
the midpoint `-2^30`, probes the string `a` through the wrapped entry address
32, and recurses on the bounds `(-2^30 + 1, 2^30)`: `h - l + 1` grows from 1
to `2^31`, and a budget of two calls, more than the first `h - l + 1`, is
used up. -/
theorem getIndexLH_measure_grows :
    (openFile blank (some fileHuge)).out = .ok (true, catHuge) ∧
    (0 : Int) ≤ 1073741824 ∧ (1073741824 : Int) ≤ catHuge._N ∧
    getIndexLH catHuge (.arg [0x62, 0]) 1 1073741824 1073741824 =
      ⟨[32, 33, 34, 35, 36, 37], .error .fuel⟩ ∧
    wrap32 (Int.tdiv (wrap32 (1073741824 + 1073741824)) 2 + 1) = -1073741823 ∧
    (getIndexLH catHuge (.arg [0x62, 0]) 2 1073741824 1073741824).out = .error .fuel := by
  decide

/-- C15, amended: for every query, every buffer contents and bounds `0 ≤ l`,
`h < 2^30` (every `h ≤ count` for a count below `2^30`), the search
terminates: a budget of more than `h - l + 1` calls, and of at least one, is
never used up, because each recursive call strictly decreases `h - l + 1`;
and the search returns `-1` at once, without a read, when `h < l`. -/
theorem getIndexLH_terminates (s : LocaleStrings) (str : CharPtr) (fuel : Nat) (l h : Int)
    (hl : 0 ≤ l) (hh : h < 1073741824) (h0 : 0 < fuel) (hf : h - l + 1 < fuel) :
    (getIndexLH s str fuel l h).out ≠ .error .fuel ∧
    (h < l → getIndexLH s str fuel l h = ⟨[], .ok (-1)⟩) := by
  refine ⟨getIndexLH_noFuel s str fuel l h hl hh h0 hf, fun hhl => ?_⟩
  obtain ⟨k, rfl⟩ : ∃ k, fuel = k + 1 := ⟨fuel - 1, by omega⟩
  rw [getIndexLH_lt s str k l h hhl]
  rfl

theorem getIndexLH_terminates_witness :
    (getIndexLH catAB (.arg [0x78, 0]) 4 0 2).out ≠ .error .fuel ∧
      ((2 : Int) < 0 → getIndexLH catAB (.arg [0x78, 0]) 4 0 2 = ⟨[], .ok (-1)⟩) :=
  getIndexLH_terminates catAB (.arg [0x78, 0]) 4 0 2 (by decide) (by decide) (by decide)
    (by decide)

/-! ## The result of `translate` -/

theorem get_null_gt (s : LocaleStrings) (i : Int) (h : (get s i).out = .ok .null) :
    i > s._N := by
  by_contra hn
  unfold get at h
  rw [if_neg hn] at h
  obtain ⟨v, _, h⟩ := Run.out_bind_inv h
  simp at h

theorem getTranslated_data (s : LocaleStrings) (i : Int) (p : CharPtr) (hi : i ≤ s._N)
    (h : (getTranslated s i).out = .ok p) : p ≠ .null := by
  unfold getTranslated at h
  rw [if_neg (by omega)] at h
  obtain ⟨v, _, h⟩ := Run.out_bind_inv h
  simp at h
  rw [← h]
  simp

theorem getIndexLH_le (s : LocaleStrings) (str : CharPtr) :
    ∀ (fuel : Nat) (l h r : Int), (getIndexLH s str fuel l h).out = .ok r →
      r = -1 ∨ r ≤ s._N := by
  intro fuel
  induction fuel with
  | zero =>
    intro l h r hr
    rw [getIndexLH_zero] at hr
    simp [Run.stop] at hr
  | succ k ih =>
    intro l h r hr
    by_cases hhl : h < l
    · rw [getIndexLH_lt s str k l h hhl] at hr
      simp at hr
      exact Or.inl hr.symm
    · rw [getIndexLH_succ s str k l h hhl] at hr
      obtain ⟨ms, hms, hr⟩ := Run.out_bind_inv hr
      by_cases hnull : ms = .null
      · rw [if_pos hnull] at hr
        simp at hr
        exact Or.inl hr.symm
      · rw [if_neg hnull] at hr
        obtain ⟨a, ha, hr⟩ := Run.out_bind_inv hr
        obtain ⟨b, hb, hr⟩ := Run.out_bind_inv hr
        by_cases hc1 : strCompare a b < 0
        · rw [if_pos hc1] at hr
          exact ih _ _ r hr
        · rw [if_neg hc1] at hr
          by_cases hc2 : strCompare a b > 0
          · rw [if_pos hc2] at hr
            exact ih _ _ r hr
          · rw [if_neg hc2] at hr
            simp at hr
            rw [← hr]
            exact Or.inr (get_nonnull_le s _ ms hms hnull)

theorem getIndex_reads_query (s : LocaleStrings) (str : CharPtr) (hN0 : 0 ≤ s._N)
    (hN1 : s._N < 2147483648) (fuel : Nat) (r : Int)
    (hr : (getIndex fuel s str).out = .ok r) : ∃ q, (cstr s str).out = .ok q := by
  unfold getIndex at hr
  cases fuel with
  | zero =>
    rw [getIndexLH_zero] at hr
    simp [Run.stop] at hr
  | succ k =>
    rw [getIndexLH_succ s str k 0 s._N (by omega),
      midpoint_eq 0 s._N (le_refl 0) hN0 (by omega)] at hr
    obtain ⟨ms, hms, hr⟩ := Run.out_bind_inv hr
    by_cases hnull : ms = .null
    · rw [hnull] at hms
      have := get_null_gt s _ hms
      omega
    · rw [if_neg hnull] at hr
      obtain ⟨a, ha, hr⟩ := Run.out_bind_inv hr
      exact ⟨a, ha⟩

/-- C11: for every reader state whose count is a non-negative `int` and every
query, `translate` never returns null. Whenever it returns, the result is
the query pointer itself, `getIndex` having returned a negative value, or the
non-null result of `getTranslated(i)` for the index `0 ≤ i ≤ count` that
`getIndex` returned, which the guard `i > count` of `getTranslated` does not
reject. When the count is below `2^30`, a budget of more than `count + 1`
calls is never used up. -/
theorem translate_not_null (fuel : Nat) (s : LocaleStrings) (str : CharPtr)
    (hN0 : 0 ≤ s._N) (hN1 : s._N < 2147483648) :
    (translate fuel s str).out ≠ .ok .null ∧
    (∀ p : CharPtr, (translate fuel s str).out = .ok p →
      (p = str ∧ ∃ i : Int, i < 0 ∧ (getIndex fuel s str).out = .ok i) ∨
      (∃ i : Int, 0 ≤ i ∧ i ≤ s._N ∧ (getIndex fuel s str).out = .ok i ∧
        (getTranslated s i).out = .ok p ∧ getTranslated s i ≠ ⟨[], .ok .null⟩)) ∧
    (s._N < 1073741824 → s._N + 1 < fuel → (translate fuel s str).out ≠ .error .fuel) := by
  have key : ∀ p : CharPtr, (translate fuel s str).out = .ok p →
      p ≠ .null ∧
      ((p = str ∧ ∃ i : Int, i < 0 ∧ (getIndex fuel s str).out = .ok i) ∨
      (∃ i : Int, 0 ≤ i ∧ i ≤ s._N ∧ (getIndex fuel s str).out = .ok i ∧
        (getTranslated s i).out = .ok p ∧ getTranslated s i ≠ ⟨[], .ok .null⟩)) := by
    intro p hp
    unfold translate at hp
    obtain ⟨i, hi, hp⟩ := Run.out_bind_inv hp
    by_cases hneg : i < 0
    · rw [if_pos hneg] at hp
      simp at hp
      obtain ⟨q, hq⟩ := getIndex_reads_query s str hN0 hN1 fuel i hi
      refine ⟨?_, Or.inl ⟨hp.symm, i, hneg, hi⟩⟩
      intro hnull
      rw [hp, hnull] at hq
      simp [cstr, Run.stop] at hq
    · rw [if_neg hneg] at hp
      have hle : i ≤ s._N := by
        rcases getIndexLH_le s str fuel 0 s._N i hi with h | h
        · omega
        · exact h
      have hd := getTranslated_data s i p hle hp
      refine ⟨hd, Or.inr ⟨i, by omega, hle, hi, hp, ?_⟩⟩
      intro e
      rw [e] at hp
      simp at hp
      exact hd hp.symm
  refine ⟨fun h => (key _ h).1 rfl, fun p hp => (key p hp).2, fun hs hf => ?_⟩
  unfold translate
  refine bind_noFuel ?_ fun i => ?_
  · exact getIndexLH_noFuel s str fuel 0 s._N (le_refl 0) hs (by omega) (by omega)
  · split
    · exact pure_noFuel _
    · unfold getTranslated
      split
      · exact pure_noFuel _
      · exact bind_noFuel (intAt_noFuel s _) fun _ => pure_noFuel _

theorem translate_not_null_witness :
    (0 : Int) ≤ catAB._N ∧ catAB._N < 2147483648 ∧
      (translate 4 catAB (.arg [0x62, 0])).out = .ok (.data 66) ∧
      (translate 4 catAB (.arg [0x62, 0])).out ≠ .ok .null :=
  ⟨by decide, by decide, by decide,
   (translate_not_null 4 catAB (.arg [0x62, 0]) (by decide) (by decide)).1⟩

/-! ## The strings returned by `get` and `getTranslated` -/

theorem terminated_lt (s : LocaleStrings) (off : Int) (h : Terminated s off) :
    off < s._data.length := by
  obtain ⟨h0, hm⟩ := h
  by_contra hn
  rw [List.drop_eq_nil_of_le (by omega)] at hm
  simp at hm

theorem word_agree (s u : LocaleStrings) (p : Int) (h : AgreeExcept s u p) (a : Int)
    (h0 : 0 ≤ a) (h1 : p + 4 ≤ a) : word u a = word s a := by
  obtain ⟨_, _, _, _, _, hk⟩ := h
  unfold word
  rw [hk a.toNat (Or.inr (by omega)), hk (a + 1).toNat (Or.inr (by omega)),
    hk (a + 2).toNat (Or.inr (by omega)), hk (a + 3).toNat (Or.inr (by omega))]

theorem get_inside (s : LocaleStrings) (hs : Loaded s) (i : Int) (hi : i ≤ s._N)
    (h0 : 0 ≤ s._O + 8 * i) (h1 : s._O + 8 * i + 8 ≤ s._L) :
    get s i = ⟨[s._O + 8 * i + 4, s._O + 8 * i + 4 + 1, s._O + 8 * i + 4 + 2,
      s._O + 8 * i + 4 + 3], .ok (.data (wrap32 (word s (s._O + 8 * i + 4))))⟩ := by
  have hl := hs.1
  have hz := hs.2
  exact get_stored s hs i hi _ (wrap32_of_range _ (by omega) (by omega)).symm (by omega)
    (by omega)

theorem getTranslated_inside (s : LocaleStrings) (hs : Loaded s) (i : Int) (hi : i ≤ s._N)
    (h0 : 0 ≤ s._T + 8 * i) (h1 : s._T + 8 * i + 8 ≤ s._L) :
    getTranslated s i = ⟨[s._T + 8 * i + 4, s._T + 8 * i + 4 + 1, s._T + 8 * i + 4 + 2,
      s._T + 8 * i + 4 + 3], .ok (.data (wrap32 (word s (s._T + 8 * i + 4))))⟩ := by
  have hl := hs.1
  have hz := hs.2
  exact getTranslated_stored s hs i hi _ (wrap32_of_range _ (by omega) (by omega)).symm
    (by omega) (by omega)

theorem agree_loaded (s u : LocaleStrings) (p : Int) (hs : Loaded s)
    (h : AgreeExcept s u p) : Loaded u := by
  obtain ⟨eL, _, _, _, elen, _⟩ := h
  obtain ⟨h1, h2⟩ := hs
  exact ⟨by rw [eL, h1, elen], by rw [elen]; exact h2⟩

/-- C14: in a reader that holds a buffer, for an index `i < count` (so for
every `0 ≤ i < count`) whose
entries in both tables lie inside the buffer and refer to NUL-terminated
strings inside the buffer, `get(i)` returns the position stored in the 32-bit
little-endian word at `originalsOffset + 8 * i + 4`, and the string read
there is the bytes from that offset up to the next NUL; `getTranslated(i)`
does the same with `translationsOffset`. A buffer that differs only in the
four bytes of the length word at `tableOffset + 8 * i` gives the same run of
`get(i)`, resp. `getTranslated(i)`. -/
theorem get_string (s : LocaleStrings) (hs : Loaded s) (i : Int) (h1 : i < s._N)
    (hO : 0 ≤ s._O + 8 * i ∧ s._O + 8 * i + 8 ≤ s._L)
    (hT : 0 ≤ s._T + 8 * i ∧ s._T + 8 * i + 8 ≤ s._L)
    (hsO : Terminated s (word s (s._O + 8 * i + 4)))
    (hsT : Terminated s (word s (s._T + 8 * i + 4))) :
    (get s i).out = .ok (.data (word s (s._O + 8 * i + 4))) ∧
    (cstr s (.data (word s (s._O + 8 * i + 4)))).out =
      .ok (stringAt s (word s (s._O + 8 * i + 4))) ∧
    (getTranslated s i).out = .ok (.data (word s (s._T + 8 * i + 4))) ∧
    (cstr s (.data (word s (s._T + 8 * i + 4)))).out =
      .ok (stringAt s (word s (s._T + 8 * i + 4))) ∧
    (∀ u : LocaleStrings, AgreeExcept s u (s._O + 8 * i) → get u i = get s i) ∧
    (∀ u : LocaleStrings, AgreeExcept s u (s._T + 8 * i) →
      getTranslated u i = getTranslated s i) := by
  have hz := hs.2
  have hwO : wrap32 (word s (s._O + 8 * i + 4)) = word s (s._O + 8 * i + 4) :=
    wrap32_of_range _ (by have := hsO.1; omega) (by have := terminated_lt s _ hsO; omega)
  have hwT : wrap32 (word s (s._T + 8 * i + 4)) = word s (s._T + 8 * i + 4) :=
    wrap32_of_range _ (by have := hsT.1; omega) (by have := terminated_lt s _ hsT; omega)
  refine ⟨?_, cstr_data s _ hsO, ?_, cstr_data s _ hsT, fun u hu => ?_, fun u hu => ?_⟩
  · rw [get_inside s hs i (by omega) hO.1 hO.2, hwO]
  · rw [getTranslated_inside s hs i (by omega) hT.1 hT.2, hwT]
  · have hlu := agree_loaded s u _ hs hu
    have hwa := word_agree s u _ hu (s._O + 8 * i + 4) (by omega) (by omega)
    obtain ⟨eL, eN, eO, eT, _, _⟩ := hu
    rw [get_inside s hs i (by omega) hO.1 hO.2,
      get_inside u hlu i (by omega) (by rw [eO]; exact hO.1) (by rw [eO, eL]; exact hO.2),
      eO, hwa]
  · have hlu := agree_loaded s u _ hs hu
    have hwa := word_agree s u _ hu (s._T + 8 * i + 4) (by omega) (by omega)
    obtain ⟨eL, eN, eO, eT, _, _⟩ := hu
    rw [getTranslated_inside s hs i (by omega) hT.1 hT.2,
      getTranslated_inside u hlu i (by omega) (by rw [eT]; exact hT.1)
        (by rw [eT, eL]; exact hT.2),
      eT, hwa]

theorem get_string_witness :
    Loaded catAB ∧ (get catAB 1).out = .ok (.data 62) ∧
      (cstr catAB (.data 62)).out = .ok [0x62] ∧
      (getTranslated catAB 1).out = .ok (.data 66) ∧
      (cstr catAB (.data 66)).out = .ok [0x79] :=
  ⟨by decide,
   (get_string catAB (by decide) 1 (by decide) (by decide) (by decide) (by decide)
      (by decide)).1.trans (by decide),
   by decide,
   (get_string catAB (by decide) 1 (by decide) (by decide) (by decide) (by decide)
      (by decide)).2.2.1.trans (by decide),
   by decide⟩

end LocaleStrings
